import Mathlib

set_option maxHeartbeats 1000000

/-!
Verification of the chunking core of the repository
(`src/backend/services/chunking_service.py`, class `ChunkingService`).

Strings are modelled as `List Char`.  Python's unqualified `str.strip()` and
the regex class `\s` are modelled by the ASCII whitespace characters
(space, tab, newline, carriage return, vertical tab, form feed); the inputs
this service handles are plain prose, and none of the verified statements
depend on non-ASCII whitespace.
-/

namespace Chunking

/-- `ChunkingService.CHARS_PER_TOKEN`. -/
def CHARS_PER_TOKEN : Nat := 4

/-- ASCII whitespace, as recognised by Python's `str.strip` and regex `\s`. -/
def pyIsSpace (c : Char) : Bool :=
  c == ' ' || c == '\t' || c == '\n' || c == '\r' ||
    c == Char.ofNat 11 || c == Char.ofNat 12

/-- Leading-whitespace removal (`str.lstrip`). -/
def lstrip (l : List Char) : List Char := l.dropWhile pyIsSpace

/-- Trailing-whitespace removal (`str.rstrip`). -/
def rstrip (l : List Char) : List Char := (l.reverse.dropWhile pyIsSpace).reverse

/-- Python `str.strip()`: drop leading and trailing whitespace. -/
def strip (l : List Char) : List Char := rstrip (lstrip l)

/-- `ChunkingService.estimate_tokens`: `len(text) // CHARS_PER_TOKEN`. -/
def estimate_tokens (l : List Char) : Nat := l.length / CHARS_PER_TOKEN

/-- The character class `[.!?]` of the sentence-ending regex. -/
def isSentEnd (c : Char) : Bool := c == '.' || c == '!' || c == '?'

/-- Left-to-right scan of `re.split(r'[.!?]\s+', text)`: a match is one
sentence-ending character followed by a maximal (greedy) nonempty run of
whitespace; the matched delimiter is removed and the pieces between the
matches are returned.  `acc` holds the current piece, reversed; the `Bool`
flag records whether the scanner is inside the whitespace run of a match
(in that state it keeps consuming whitespace before resuming). -/
def sentAux : Bool → List Char → List Char → List (List Char)
  | _, acc, [] => [acc.reverse]
  | true, acc, c :: rest =>
    if pyIsSpace c then sentAux true acc rest
    else
      match rest with
      | [] => [(c :: acc).reverse]
      | d :: rest2 =>
        if isSentEnd c && pyIsSpace d then
          acc.reverse :: sentAux true [] (d :: rest2)
        else
          sentAux false (c :: acc) (d :: rest2)
  | false, acc, c :: rest =>
    match rest with
    | [] => [(c :: acc).reverse]
    | d :: rest2 =>
      if isSentEnd c && pyIsSpace d then
        acc.reverse :: sentAux true [] (d :: rest2)
      else
        sentAux false (c :: acc) (d :: rest2)

/-- `ChunkingService.split_by_sentences`:
`[s.strip() for s in re.split(r'[.!?]\s+', text) if s.strip()]`. -/
def split_by_sentences (text : List Char) : List (List Char) :=
  ((sentAux false [] text).map strip).filter (fun s => !s.isEmpty)

/-- Left-to-right scan of Python `text.split('\n\n')`: split at each
non-overlapping occurrence of two consecutive newline characters. -/
def splitParasAux : List Char → List Char → List (List Char)
  | acc, [] => [acc.reverse]
  | acc, [c] => [(c :: acc).reverse]
  | acc, c :: d :: rest =>
    if c == '\n' && d == '\n' then
      acc.reverse :: splitParasAux [] rest
    else
      splitParasAux (c :: acc) (d :: rest)

/-- Python `text.split('\n\n')`. -/
def splitParas (text : List Char) : List (List Char) := splitParasAux [] text

/-- The paragraph list of `chunk_text`:
`[p.strip() for p in text.split('\n\n') if p.strip()]`. -/
def parasOf (text : List Char) : List (List Char) :=
  ((splitParas text).map strip).filter (fun p => !p.isEmpty)

/-- Python `overlap.find('. ')`: index of the first occurrence of the
two-character sequence period-space, `none` when absent. -/
def findDotSpace : List Char → Option Nat
  | [] => none
  | [_] => none
  | c :: d :: rest =>
    if c == '.' && d == ' ' then some 0
    else (findDotSpace (d :: rest)).map (· + 1)

/-- The local variable `overlap = text[-overlap_chars:]` of `_get_overlap`.
The Python slice `text[-n:]` degenerates to the whole string when `n = 0`;
the `if overlap_chars = 0` branch reproduces that. -/
def overlapSlice (text : List Char) (overlap_chars : Nat) : List Char :=
  if overlap_chars = 0 then text
  else text.drop (text.length - overlap_chars)

/-- `ChunkingService._get_overlap`. -/
def get_overlap (text : List Char) (overlap_chars : Nat) : List Char :=
  if text.length ≤ overlap_chars then text
  else
    match findDotSpace (overlapSlice text overlap_chars) with
    | some i => (overlapSlice text overlap_chars).drop (i + 2)
    | none => overlapSlice text overlap_chars

/-- One chunk dictionary produced by `chunk_text`. -/
structure Chunk where
  source : List Char
  chunk_index : Nat
  text : List Char
  token_estimate : Nat
deriving DecidableEq, Repr

/-- The mutable state of the `chunk_text` loop: the `chunks` list built so
far, the running `chunk_index` counter and the accumulator `current_chunk`. -/
structure CState where
  chunks : List Chunk
  idx : Nat
  cur : List Char
deriving Repr

/-- The body of the inner `for sentence in sentences` loop of `chunk_text`.
The Python condition `sentence_tokens > max_tokens and current_chunk` tests
the truthiness (non-emptiness) of the accumulator. -/
def stepSentence (source : List Char) (max_tokens overlap_chars : Nat)
    (st : CState) (sentence : List Char) : CState :=
  if max_tokens < estimate_tokens (st.cur ++ ' ' :: sentence) ∧ st.cur ≠ [] then
    { chunks := st.chunks ++ [⟨source, st.idx, strip st.cur, estimate_tokens st.cur⟩],
      idx := st.idx + 1,
      cur := get_overlap st.cur overlap_chars ++ ' ' :: sentence }
  else
    { st with cur := st.cur ++ ' ' :: sentence }

/-- The body of the `for para in paragraphs` loop of `chunk_text`. -/
def stepPara (source : List Char) (max_tokens overlap_chars : Nat)
    (st : CState) (para : List Char) : CState :=
  if max_tokens < estimate_tokens para then
    (split_by_sentences para).foldl (stepSentence source max_tokens overlap_chars) st
  else
    if max_tokens < estimate_tokens (st.cur ++ '\n' :: '\n' :: para) ∧ st.cur ≠ [] then
      { chunks := st.chunks ++ [⟨source, st.idx, strip st.cur, estimate_tokens st.cur⟩],
        idx := st.idx + 1,
        cur := get_overlap st.cur overlap_chars ++ '\n' :: '\n' :: para }
    else if st.cur ≠ [] then
      { st with cur := st.cur ++ '\n' :: '\n' :: para }
    else
      { st with cur := para }

/-- The block after the paragraph loop of `chunk_text`: emit the accumulator
as a final chunk if its stripped form is truthy. -/
def finalize (source : List Char) (st : CState) : List Chunk :=
  if strip st.cur = [] then st.chunks
  else st.chunks ++ [⟨source, st.idx, strip st.cur, estimate_tokens st.cur⟩]

/-- `ChunkingService.chunk_text`.  The guard models
`if not text or not text.strip(): return []`; `overlap_chars` is
`overlap_tokens * CHARS_PER_TOKEN`.  (`max_chars` is computed in the source
but never used, so it is not modelled.) -/
def chunk_text (text source : List Char) (max_tokens overlap_tokens : Nat) :
    List Chunk :=
  if strip text = [] then []
  else
    finalize source
      ((parasOf text).foldl
        (stepPara source max_tokens (overlap_tokens * CHARS_PER_TOKEN))
        ⟨[], 0, []⟩)

/-- One record of the `sources` argument of `chunk_multiple_sources`, a dict
with keys `'source'` and `'text'` (both keys are always present in the
modelled inputs, so the `.get` defaults of the source are not exercised). -/
structure SourceData where
  source : List Char
  text : List Char
deriving DecidableEq, Repr

/-- `ChunkingService.chunk_multiple_sources`: per source, if `text.strip()`
is truthy, extend the result with `chunk_text(text, source_name, max_tokens)`
(the `overlap_tokens` parameter is left at its default `100`). -/
def chunk_multiple_sources (sources : List SourceData) (max_tokens : Nat) :
    List Chunk :=
  sources.foldl
    (fun all_chunks sd =>
      if strip sd.text = [] then all_chunks
      else all_chunks ++ chunk_text sd.text sd.source max_tokens 100)
    []

/-- The overlap computation as the specification describes it: the whole
text when it fits, otherwise exactly the trailing `overlap_chars` characters
(so the empty slice when `overlap_chars = 0`), then the remainder after the
first period-space occurrence inside that slice, if any.  Used to compare
the claimed behaviour with the implementation `get_overlap`. -/
def get_overlap_claimed (text : List Char) (overlap_chars : Nat) : List Char :=
  if text.length ≤ overlap_chars then text
  else
    match findDotSpace (text.drop (text.length - overlap_chars)) with
    | some i => (text.drop (text.length - overlap_chars)).drop (i + 2)
    | none => text.drop (text.length - overlap_chars)

/-- A delimiter occurrence of the sentence-splitting regex: a character from
`{.!?}` immediately followed by a whitespace character. -/
def containsDelim : List Char → Bool
  | [] => false
  | [_] => false
  | c :: d :: rest => (isSentEnd c && pyIsSpace d) || containsDelim (d :: rest)

/-- Two consecutive newline characters occur somewhere (a blank-line
paragraph break). -/
def hasParaBreak : List Char → Bool
  | [] => false
  | [_] => false
  | c :: d :: rest => (c == '\n' && d == '\n') || hasParaBreak (d :: rest)

/-- The largest token estimate of a sentence obtained from a paragraph whose
own estimate exceeds `max_tokens` (those are the only sentences the builder
ever appends); `0` when there is no such sentence. -/
def maxOversizedSentEst (max_tokens : Nat) (paras : List (List Char)) : Nat :=
  (((paras.filter fun p => decide (max_tokens < estimate_tokens p)).map
      split_by_sentences).flatten.map estimate_tokens).foldr Nat.max 0

/-- `R` holds between every pair of consecutive elements. -/
def ChainRel (R : Chunk → Chunk → Prop) : List Chunk → Prop
  | [] => True
  | [_] => True
  | a :: b :: rest => R a b ∧ ChainRel R (b :: rest)

/-- The overlap-continuity relation between consecutive chunks: the second
chunk's text begins with a non-empty block of characters that the first
chunk's text ends with. -/
def overlapRel (c₁ c₂ : Chunk) : Prop :=
  ∃ t : List Char, t ≠ [] ∧ (∃ pre, c₁.text = pre ++ t) ∧
    ∃ rest, c₂.text = t ++ rest

/-- The accumulator is either empty or nonempty with no trailing whitespace
(it always ends with a stripped paragraph or sentence). -/
def curOk (cur : List Char) : Prop := cur = [] ∨ (rstrip cur = cur ∧ cur ≠ [])

/-- A chunk's `token_estimate` was computed on the raw (untrimmed)
accumulator whose trimmed form became the chunk's `text`. -/
def rawOk (c : Chunk) : Prop :=
  ∃ raw, c.text = strip raw ∧ c.token_estimate = estimate_tokens raw

/-- Loop invariant of `chunk_text`: the index counter equals the number of
emitted chunks, the emitted indices are `0..n-1` in order, every emitted
text is trimmed and nonempty, every estimate comes from the raw
accumulator, and the accumulator has no trailing whitespace. -/
def basicInv (st : CState) : Prop :=
  st.idx = st.chunks.length ∧
  st.chunks.map Chunk.chunk_index = List.range st.chunks.length ∧
  (∀ c ∈ st.chunks, strip c.text = c.text ∧ c.text ≠ [] ∧ rawOk c) ∧
  curOk st.cur

/-- Loop invariant for overlap continuity: consecutive emitted chunks are
linked by `overlapRel`, the accumulator is well formed, and whenever a chunk
has been emitted the accumulator is nonempty and still carries, at its
(left-stripped) head, a nonempty tail of the last emitted chunk's text. -/
def linkInv (st : CState) : Prop :=
  ChainRel overlapRel st.chunks ∧
  curOk st.cur ∧
  ∀ a, st.chunks.getLast? = some a →
    st.cur ≠ [] ∧ ∃ t, t ≠ [] ∧ (∃ pre, a.text = pre ++ t) ∧
      ∃ rest, lstrip st.cur = t ++ rest

-- sanity checks of the embedding against hand-traces of the Python code
example : split_by_sentences "aaa. bbbb".data = ["aaa".data, "bbbb".data] := by decide
example : splitParas "a\n\n\nb".data = ["a".data, "\nb".data] := by decide
example : get_overlap "ab".data 0 = "ab".data := by decide
example : get_overlap "xy. zw".data 5 = "zw".data := by decide
example :
    (chunk_text "aaa. bbbb".data "s".data 1 0).map
      (fun c => (c.text, c.token_estimate)) =
    [("aaa".data, 1), ("aaa bbbb".data, 2)] := by decide

/-! ### Whitespace-stripping toolbox -/

theorem lstrip_decomp (l : List Char) :
    l = l.takeWhile pyIsSpace ++ lstrip l :=
  (List.takeWhile_append_dropWhile pyIsSpace l).symm

theorem rstrip_decomp (l : List Char) :
    l = rstrip l ++ (l.reverse.takeWhile pyIsSpace).reverse := by
  have h := List.takeWhile_append_dropWhile pyIsSpace l.reverse
  have h2 := congrArg List.reverse h
  rw [List.reverse_append, List.reverse_reverse] at h2
  exact h2.symm

theorem length_lstrip_le (l : List Char) : (lstrip l).length ≤ l.length := by
  conv_rhs => rw [lstrip_decomp l]
  rw [List.length_append]; omega

theorem length_rstrip_le (l : List Char) : (rstrip l).length ≤ l.length := by
  conv_rhs => rw [rstrip_decomp l]
  rw [List.length_append]; omega

theorem length_strip_le (l : List Char) : (strip l).length ≤ l.length :=
  le_trans (length_rstrip_le _) (length_lstrip_le l)

theorem estimate_strip_le (l : List Char) :
    estimate_tokens (strip l) ≤ estimate_tokens l :=
  Nat.div_le_div_right (length_strip_le l)

theorem lstrip_eq_of_length (l : List Char)
    (h : (lstrip l).length = l.length) : lstrip l = l := by
  have hd := lstrip_decomp l
  have hw : l.takeWhile pyIsSpace = [] := by
    have := congrArg List.length hd
    rw [List.length_append] at this
    exact List.length_eq_zero.mp (by omega)
  rw [hw] at hd; exact hd.symm

theorem lstrip_append (a b : List Char) :
    lstrip (a ++ b) =
      if (lstrip a).isEmpty then lstrip b else lstrip a ++ b := by
  simpa [lstrip] using @List.dropWhile_append _ pyIsSpace a b

theorem rstrip_append (a b : List Char) :
    rstrip (a ++ b) =
      if (rstrip b).isEmpty then rstrip a else a ++ rstrip b := by
  unfold rstrip
  rw [List.reverse_append, List.dropWhile_append]
  have he : (b.reverse.dropWhile pyIsSpace).isEmpty =
      ((b.reverse.dropWhile pyIsSpace).reverse).isEmpty := by
    rcases h : b.reverse.dropWhile pyIsSpace with _ | ⟨c, tl⟩ <;> simp
  by_cases h : (b.reverse.dropWhile pyIsSpace).isEmpty
  · rw [if_pos h, if_pos (by rw [← he]; exact h)]
  · rw [if_neg h, if_neg (by rw [← he]; exact h), List.reverse_append,
      List.reverse_reverse]

theorem lstrip_idem (l : List Char) : lstrip (lstrip l) = lstrip l :=
  List.dropWhile_idempotent pyIsSpace l

theorem rstrip_idem (l : List Char) : rstrip (rstrip l) = rstrip l := by
  unfold rstrip
  rw [List.reverse_reverse, List.dropWhile_idempotent]

theorem lstrip_of_head (c : Char) (tl : List Char) (h : pyIsSpace c = false) :
    lstrip (c :: tl) = c :: tl := by
  rw [lstrip, List.dropWhile_cons, if_neg (by simp [h])]

theorem head_of_lstrip (c : Char) (tl l : List Char)
    (h : lstrip l = c :: tl) : pyIsSpace c = false := by
  by_contra hc
  have hc' : pyIsSpace c = true := by
    revert hc; cases pyIsSpace c <;> simp
  have h1 : lstrip (lstrip l) = lstrip l := lstrip_idem l
  rw [h, lstrip, List.dropWhile_cons, if_pos hc'] at h1
  have := congrArg List.length h1
  have hle := (List.dropWhile_sublist (l := tl) pyIsSpace).length_le
  simp at this
  omega

theorem lstrip_of_lstripped (x : List Char) (h : lstrip x = x) :
    lstrip (rstrip x) = rstrip x := by
  cases x with
  | nil => simp [rstrip, lstrip]
  | cons c tl =>
    have hc : pyIsSpace c = false := head_of_lstrip c tl _ h
    rcases hr : rstrip (c :: tl) with _ | ⟨d, r⟩
    · simp [lstrip]
    · have hdec := rstrip_decomp (c :: tl)
      rw [hr, List.cons_append] at hdec
      injection hdec with h1 _
      rw [← h1]
      exact lstrip_of_head c r hc

theorem strip_idem (l : List Char) : strip (strip l) = strip l := by
  unfold strip
  rw [lstrip_of_lstripped (lstrip l) (lstrip_idem l), rstrip_idem]

theorem all_ws_rstrip (l : List Char) (h : ∀ c ∈ l, pyIsSpace c = true) :
    rstrip l = [] := by
  unfold rstrip
  rw [List.dropWhile_eq_nil_iff.mpr (fun c hc => h c (List.mem_reverse.mp hc))]
  rfl

theorem lstrip_ne_nil_of_rstrip (l : List Char) (hr : rstrip l = l)
    (hne : l ≠ []) : lstrip l ≠ [] := by
  intro h0
  have hall : ∀ c ∈ l, pyIsSpace c = true := by
    exact fun c hc => List.dropWhile_eq_nil_iff.mp h0 c hc
  have := all_ws_rstrip l hall
  rw [hr] at this
  exact hne this

theorem strip_eq_lstrip (l : List Char) (hr : rstrip l = l) :
    strip l = lstrip l := by
  unfold strip
  rcases h0 : lstrip l with _ | ⟨c, tl⟩
  · simp [rstrip, lstrip]
  · rw [← h0]
    have hld := lstrip_decomp l
    have hsplit := rstrip_append (l.takeWhile pyIsSpace) (lstrip l)
    rw [← hld, hr] at hsplit
    by_cases he : (rstrip (lstrip l)).isEmpty
    · rw [if_pos he] at hsplit
      exfalso
      have h1 := congrArg List.length hsplit
      have h2 := length_rstrip_le (l.takeWhile pyIsSpace)
      have h3 := congrArg List.length hld
      rw [List.length_append] at h3
      have h4 : (lstrip l).length = tl.length + 1 := by rw [h0]; rfl
      omega
    · rw [if_neg he] at hsplit
      conv_lhs at hsplit => rw [hld]
      exact (List.append_cancel_left hsplit).symm

theorem strip_ne_nil (l : List Char) (hr : rstrip l = l) (hne : l ≠ []) :
    strip l ≠ [] := by
  rw [strip_eq_lstrip l hr]
  exact lstrip_ne_nil_of_rstrip l hr hne

theorem rstrip_append_unit (a u : List Char) (hu : rstrip u = u)
    (hne : u ≠ []) : rstrip (a ++ u) = a ++ u := by
  rw [rstrip_append, hu, if_neg (by simpa using hne)]

theorem lstrip_append_left (a b : List Char) (h : lstrip a ≠ []) :
    lstrip (a ++ b) = lstrip a ++ b := by
  rw [lstrip_append, if_neg (by simpa using h)]

theorem rstrip_tail_piece (t pre s : List Char) (hr : rstrip t = t)
    (hdec : t = pre ++ s) (hne : s ≠ []) : rstrip s = s := by
  have hrev : List.dropWhile pyIsSpace t.reverse = t.reverse := by
    have := congrArg List.reverse hr
    rw [rstrip, List.reverse_reverse] at this
    exact this
  rcases hs : s.reverse with _ | ⟨c, r⟩
  · exact absurd (by simpa using congrArg List.reverse hs) hne
  · have hc : pyIsSpace c = false := by
      have h1 : t.reverse = c :: (r ++ pre.reverse) := by
        rw [hdec, List.reverse_append, hs, List.cons_append]
      rw [h1, List.dropWhile_cons] at hrev
      by_contra hcc
      have hcc' : pyIsSpace c = true := by revert hcc; cases pyIsSpace c <;> simp
      rw [if_pos hcc'] at hrev
      have hlen := congrArg List.length hrev
      rw [List.length_cons] at hlen
      have hle := (List.dropWhile_sublist (l := r ++ pre.reverse) pyIsSpace).length_le
      omega
    unfold rstrip
    rw [hs, List.dropWhile_cons, if_neg (by simp [hc]), ← hs,
      List.reverse_reverse]

theorem lstrip_tail_of_tail (t s : List Char) (pre : List Char)
    (hdec : t = pre ++ s) : ∃ pre2, lstrip t = pre2 ++ lstrip s := by
  rw [hdec, lstrip_append]
  by_cases h : (lstrip pre).isEmpty
  · rw [if_pos h]; exact ⟨[], rfl⟩
  · rw [if_neg h]
    refine ⟨lstrip pre ++ s.takeWhile pyIsSpace, ?_⟩
    rw [List.append_assoc]
    congr 1
    exact lstrip_decomp s

theorem rstrip_of_strip_eq (u : List Char) (h : strip u = u) :
    rstrip u = u ∧ lstrip u = u := by
  have hl : lstrip u = u := by
    apply lstrip_eq_of_length
    have h1 : (strip u).length ≤ (lstrip u).length := length_rstrip_le _
    have h2 := length_lstrip_le u
    rw [h] at h1
    omega
  refine ⟨?_, hl⟩
  have : strip u = rstrip (lstrip u) := rfl
  rw [hl] at this
  rw [← this, h]

/-! ### Paragraphs, sentences, find, overlap -/

theorem mem_parasOf (text p : List Char) (h : p ∈ parasOf text) :
    strip p = p ∧ p ≠ [] := by
  unfold parasOf at h
  rw [List.mem_filter] at h
  obtain ⟨hmem, hne⟩ := h
  rw [List.mem_map] at hmem
  obtain ⟨q, _, hq⟩ := hmem
  constructor
  · rw [← hq]; exact strip_idem q
  · intro h0; rw [h0] at hne; simp at hne

theorem mem_split_by_sentences (t s : List Char)
    (h : s ∈ split_by_sentences t) : strip s = s ∧ s ≠ [] := by
  unfold split_by_sentences at h
  rw [List.mem_filter] at h
  obtain ⟨hmem, hne⟩ := h
  rw [List.mem_map] at hmem
  obtain ⟨q, _, hq⟩ := hmem
  constructor
  · rw [← hq]; exact strip_idem q
  · intro h0; rw [h0] at hne; simp at hne

theorem findDotSpace_some (l : List Char) (i : Nat)
    (h : findDotSpace l = some i) :
    ∃ a b, l = a ++ '.' :: ' ' :: b ∧ a.length = i := by
  induction l generalizing i with
  | nil => simp [findDotSpace] at h
  | cons c tl ih =>
    cases tl with
    | nil => simp [findDotSpace] at h
    | cons d rest =>
      rw [findDotSpace] at h
      by_cases hcd : (c == '.' && d == ' ') = true
      · rw [if_pos hcd] at h
        simp at hcd
        obtain ⟨hc, hd⟩ := hcd
        injection h with h0
        exact ⟨[], rest, by rw [hc, hd]; rfl, by rw [← h0]; rfl⟩
      · rw [if_neg hcd] at h
        rcases hrec : findDotSpace (d :: rest) with _ | j
        · rw [hrec] at h; simp at h
        · rw [hrec] at h
          simp at h
          obtain ⟨a, b, hab, hlen⟩ := ih j hrec
          exact ⟨c :: a, b, by rw [List.cons_append, ← hab],
            by rw [List.length_cons, hlen, h]⟩

theorem overlapSlice_tail (t : List Char) (oc : Nat) :
    ∃ pre, t = pre ++ overlapSlice t oc := by
  unfold overlapSlice
  by_cases h0 : oc = 0
  · rw [if_pos h0]; exact ⟨[], rfl⟩
  · rw [if_neg h0]
    exact ⟨t.take (t.length - oc), (List.take_append_drop _ t).symm⟩

theorem overlapSlice_ne_nil (t : List Char) (oc : Nat) (hne : t ≠ [])
    (hg : ¬ t.length ≤ oc) : overlapSlice t oc ≠ [] := by
  unfold overlapSlice
  by_cases h0 : oc = 0
  · rw [if_pos h0]; exact hne
  · rw [if_neg h0]
    intro hcon
    have := congrArg List.length hcon
    rw [List.length_drop] at this
    simp at this
    omega

theorem findDotSpace_drop (ov : List Char) (i : Nat) (a b : List Char)
    (hab : ov = a ++ '.' :: ' ' :: b) (hlen : a.length = i) :
    ov.drop (i + 2) = b := by
  rw [hab, ← hlen, ← List.drop_drop, List.drop_left]
  rfl

theorem rstrip_ends_space (x : List Char) (c : Char) (hc : pyIsSpace c = true) :
    rstrip (x ++ [c]) ≠ x ++ [c] := by
  intro h
  have hrev := congrArg List.reverse h
  rw [rstrip, List.reverse_reverse, List.reverse_append] at hrev
  simp only [List.reverse_cons, List.reverse_nil, List.nil_append,
    List.cons_append] at hrev
  rw [List.dropWhile_cons, hc] at hrev
  simp only [if_true] at hrev
  have hle := (List.dropWhile_sublist (l := x.reverse) pyIsSpace).length_le
  have hlen := congrArg List.length hrev
  rw [List.length_cons] at hlen
  rw [List.length_reverse] at hle hlen
  omega

theorem get_overlap_tail (t : List Char) (oc : Nat) :
    ∃ pre, t = pre ++ get_overlap t oc := by
  unfold get_overlap
  by_cases hg : t.length ≤ oc
  · rw [if_pos hg]; exact ⟨[], rfl⟩
  · rw [if_neg hg]
    obtain ⟨pre, hpre⟩ := overlapSlice_tail t oc
    rcases hf : findDotSpace (overlapSlice t oc) with _ | i
    · exact ⟨pre, hpre⟩
    · dsimp only
      obtain ⟨a, b, hab, hlen⟩ := findDotSpace_some _ i hf
      rw [findDotSpace_drop _ i a b hab hlen]
      exact ⟨pre ++ a ++ ['.', ' '], by rw [hpre, hab]; simp⟩

theorem get_overlap_ne_nil (t : List Char) (oc : Nat) (hr : rstrip t = t)
    (hne : t ≠ []) : get_overlap t oc ≠ [] := by
  unfold get_overlap
  by_cases hg : t.length ≤ oc
  · rw [if_pos hg]; exact hne
  · rw [if_neg hg]
    have hovne : overlapSlice t oc ≠ [] := overlapSlice_ne_nil t oc hne hg
    obtain ⟨pre, hpre⟩ := overlapSlice_tail t oc
    have hovr : rstrip (overlapSlice t oc) = overlapSlice t oc :=
      rstrip_tail_piece t pre _ hr hpre hovne
    rcases hf : findDotSpace (overlapSlice t oc) with _ | i
    · exact hovne
    · dsimp only
      obtain ⟨a, b, hab, hlen⟩ := findDotSpace_some _ i hf
      rw [findDotSpace_drop _ i a b hab hlen]
      intro hb
      have heq : a ++ '.' :: ' ' :: b = (a ++ ['.']) ++ [' '] := by
        rw [hb]; simp
      rw [heq] at hab
      rw [hab] at hovr
      exact rstrip_ends_space (a ++ ['.']) ' ' (by decide) hovr

theorem get_overlap_length_le (t : List Char) (oc : Nat) (h0 : oc ≠ 0) :
    (get_overlap t oc).length ≤ oc := by
  unfold get_overlap
  by_cases hg : t.length ≤ oc
  · rw [if_pos hg]; exact hg
  · rw [if_neg hg]
    have hsl : (overlapSlice t oc).length = oc := by
      unfold overlapSlice
      rw [if_neg h0, List.length_drop]
      omega
    rcases hf : findDotSpace (overlapSlice t oc) with _ | i
    · exact le_of_eq hsl
    · dsimp only
      rw [List.length_drop]
      omega

theorem lstrip_get_overlap_ne_nil (t : List Char) (oc : Nat)
    (hr : rstrip t = t) (hne : t ≠ []) : lstrip (get_overlap t oc) ≠ [] := by
  obtain ⟨pre, hpre⟩ := get_overlap_tail t oc
  have hone := get_overlap_ne_nil t oc hr hne
  have hrs : rstrip (get_overlap t oc) = get_overlap t oc :=
    rstrip_tail_piece t pre _ hr hpre hone
  exact lstrip_ne_nil_of_rstrip _ hrs hone

/-! ### Generic fold invariants and chains -/

theorem foldl_inv {α σ : Type} {I : σ → Prop} {Pa : α → Prop}
    (f : σ → α → σ) (hstep : ∀ st a, Pa a → I st → I (f st a)) :
    ∀ (l : List α) (st : σ), (∀ a ∈ l, Pa a) → I st → I (l.foldl f st) := by
  intro l
  induction l with
  | nil => intro st _ h; exact h
  | cons a tl ih =>
    intro st hl h
    exact ih _ (fun x hx => hl x (List.mem_cons_of_mem _ hx))
      (hstep st a (hl a (List.mem_cons_self _ _)) h)

theorem chainRel_snoc (R : Chunk → Chunk → Prop) (l : List Chunk) (c : Chunk)
    (hch : ChainRel R l) (hlast : ∀ a, l.getLast? = some a → R a c) :
    ChainRel R (l ++ [c]) := by
  induction l with
  | nil => exact trivial
  | cons x tl ih =>
    cases tl with
    | nil =>
      exact ⟨hlast x rfl, trivial⟩
    | cons y tl2 =>
      obtain ⟨hxy, hrest⟩ := hch
      refine ⟨hxy, ih hrest ?_⟩
      intro a ha
      apply hlast
      rw [List.getLast?_cons_cons]
      exact ha

theorem chainRel_get (R : Chunk → Chunk → Prop) :
    ∀ (l : List Chunk) (i : Nat) (a b : Chunk), ChainRel R l →
      l[i]? = some a → l[i + 1]? = some b → R a b := by
  intro l
  induction l with
  | nil => intro i a b _ h; simp at h
  | cons x tl ih =>
    intro i a b hch ha hb
    cases tl with
    | nil =>
      cases i with
      | zero => simp at hb
      | succ j => simp at ha
    | cons y tl2 =>
      obtain ⟨hxy, hrest⟩ := hch
      cases i with
      | zero =>
        simp at ha hb
        cases hb with
        | refl => rw [← ha]; exact hxy
      | succ j =>
        rw [List.getElem?_cons_succ] at ha hb
        exact ih j a b hrest ha hb

/-! ### The basic invariant of the chunk builder -/

theorem curOk_append (a u : List Char) (hu : strip u = u) (hne : u ≠ []) :
    curOk (a ++ u) := by
  obtain ⟨hru, _⟩ := rstrip_of_strip_eq u hu
  right
  refine ⟨rstrip_append_unit a u hru hne, ?_⟩
  intro h
  exact hne (List.append_eq_nil.mp h).2

theorem curOk_strip_ne_nil (cur : List Char) (h : curOk cur) (hne : cur ≠ []) :
    strip cur ≠ [] := by
  rcases h with h | ⟨hr, _⟩
  · exact absurd h hne
  · exact strip_ne_nil cur hr hne

theorem stepSentence_basic (src : List Char) (mt oc : Nat) :
    ∀ st s, (strip s = s ∧ s ≠ []) → basicInv st →
      basicInv (stepSentence src mt oc st s) := by
  intro st s hs hinv
  obtain ⟨hidx, hmap, htexts, hcur⟩ := hinv
  unfold stepSentence
  by_cases hcond : mt < estimate_tokens (st.cur ++ ' ' :: s) ∧ st.cur ≠ []
  · rw [if_pos hcond]
    refine ⟨by simp [hidx], ?_, ?_, ?_⟩
    · simp only [List.map_append, List.length_append, List.map_cons,
        List.map_nil, List.length_cons, List.length_nil]
      rw [hmap, hidx, List.range_succ]
    · intro c hc
      rw [List.mem_append] at hc
      rcases hc with hc | hc
      · exact htexts c hc
      · rw [List.mem_singleton] at hc
        subst hc
        have hr : rstrip st.cur = st.cur := by
          rcases hcur with h | ⟨hr, _⟩
          · exact absurd h hcond.2
          · exact hr
        exact ⟨strip_idem _, strip_ne_nil _ hr hcond.2, st.cur, rfl, rfl⟩
    · show curOk (get_overlap st.cur oc ++ ' ' :: s)
      rw [show get_overlap st.cur oc ++ ' ' :: s =
        (get_overlap st.cur oc ++ [' ']) ++ s by simp]
      exact curOk_append _ s hs.1 hs.2
  · rw [if_neg hcond]
    refine ⟨hidx, hmap, htexts, ?_⟩
    show curOk (st.cur ++ ' ' :: s)
    rw [show st.cur ++ ' ' :: s = (st.cur ++ [' ']) ++ s by simp]
    exact curOk_append _ s hs.1 hs.2

theorem stepPara_basic (src : List Char) (mt oc : Nat) :
    ∀ st p, (strip p = p ∧ p ≠ []) → basicInv st →
      basicInv (stepPara src mt oc st p) := by
  intro st p hp hinv
  unfold stepPara
  by_cases h1 : mt < estimate_tokens p
  · rw [if_pos h1]
    exact foldl_inv _ (stepSentence_basic src mt oc) _ st
      (fun s hs => mem_split_by_sentences p s hs) hinv
  · rw [if_neg h1]
    obtain ⟨hidx, hmap, htexts, hcur⟩ := hinv
    by_cases h2 : mt < estimate_tokens (st.cur ++ '\n' :: '\n' :: p) ∧ st.cur ≠ []
    · rw [if_pos h2]
      refine ⟨by simp [hidx], ?_, ?_, ?_⟩
      · simp only [List.map_append, List.length_append, List.map_cons,
          List.map_nil, List.length_cons, List.length_nil]
        rw [hmap, hidx, List.range_succ]
      · intro c hc
        rw [List.mem_append] at hc
        rcases hc with hc | hc
        · exact htexts c hc
        · rw [List.mem_singleton] at hc
          subst hc
          have hr : rstrip st.cur = st.cur := by
            rcases hcur with h | ⟨hr, _⟩
            · exact absurd h h2.2
            · exact hr
          exact ⟨strip_idem _, strip_ne_nil _ hr h2.2, st.cur, rfl, rfl⟩
      · show curOk (get_overlap st.cur oc ++ '\n' :: '\n' :: p)
        rw [show get_overlap st.cur oc ++ '\n' :: '\n' :: p =
          (get_overlap st.cur oc ++ ['\n', '\n']) ++ p by simp]
        exact curOk_append _ p hp.1 hp.2
    · rw [if_neg h2]
      by_cases h3 : st.cur ≠ []
      · rw [if_pos h3]
        refine ⟨hidx, hmap, htexts, ?_⟩
        show curOk (st.cur ++ '\n' :: '\n' :: p)
        rw [show st.cur ++ '\n' :: '\n' :: p =
          (st.cur ++ ['\n', '\n']) ++ p by simp]
        exact curOk_append _ p hp.1 hp.2
      · rw [if_neg h3]
        refine ⟨hidx, hmap, htexts, ?_⟩
        show curOk p
        rw [show p = [] ++ p by simp]
        exact curOk_append [] p hp.1 hp.2

theorem chunk_text_inv (text source : List Char) (mt ot : Nat) :
    (chunk_text text source mt ot).map Chunk.chunk_index =
      List.range (chunk_text text source mt ot).length ∧
    ∀ c ∈ chunk_text text source mt ot,
      strip c.text = c.text ∧ c.text ≠ [] ∧ rawOk c := by
  unfold chunk_text
  by_cases h0 : strip text = []
  · rw [if_pos h0]
    exact ⟨rfl, by intro c hc; simp at hc⟩
  · rw [if_neg h0]
    have hinv : basicInv ((parasOf text).foldl
        (stepPara source mt (ot * CHARS_PER_TOKEN)) ⟨[], 0, []⟩) :=
      foldl_inv _ (stepPara_basic source mt _) _ _
        (fun p hp => mem_parasOf text p hp)
        ⟨rfl, rfl, by intro c hc; simp at hc, Or.inl rfl⟩
    obtain ⟨hidx, hmap, htexts, hcur⟩ := hinv
    unfold finalize
    by_cases hf : strip (((parasOf text).foldl
        (stepPara source mt (ot * CHARS_PER_TOKEN)) ⟨[], 0, []⟩).cur) = []
    · rw [if_pos hf]
      exact ⟨hmap, htexts⟩
    · rw [if_neg hf]
      constructor
      · simp only [List.map_append, List.length_append, List.map_cons,
          List.map_nil, List.length_cons, List.length_nil]
        rw [hmap, hidx, List.range_succ]
      · intro c hc
        rw [List.mem_append] at hc
        rcases hc with hc | hc
        · exact htexts c hc
        · rw [List.mem_singleton] at hc
          subst hc
          exact ⟨strip_idem _, hf, _, rfl, rfl⟩

/-! ### The soft token-budget bound -/

theorem le_foldr_max (l : List Nat) (x : Nat) (hx : x ∈ l) :
    x ≤ l.foldr Nat.max 0 := by
  induction l with
  | nil => simp at hx
  | cons a tl ih =>
    rw [List.mem_cons] at hx
    rcases hx with hx | hx
    · subst hx; exact Nat.le_max_left _ _
    · exact le_trans (ih hx) (Nat.le_max_right _ _)

theorem sent_le_maxOversized (mt : Nat) (paras : List (List Char))
    (p s : List Char) (hp : p ∈ paras) (hmt : mt < estimate_tokens p)
    (hs : s ∈ split_by_sentences p) :
    estimate_tokens s ≤ maxOversizedSentEst mt paras := by
  apply le_foldr_max
  rw [List.mem_map]
  refine ⟨s, ?_, rfl⟩
  rw [List.mem_flatten]
  refine ⟨split_by_sentences p, ?_, hs⟩
  rw [List.mem_map]
  exact ⟨p, List.mem_filter.mpr ⟨hp, by simp [hmt]⟩, rfl⟩

theorem est_seed_space (ov s : List Char) (ot : Nat)
    (hov : ov.length ≤ ot * CHARS_PER_TOKEN) :
    estimate_tokens (ov ++ ' ' :: s) ≤ ot + estimate_tokens s + 1 := by
  unfold estimate_tokens CHARS_PER_TOKEN at *
  rw [List.length_append, List.length_cons]
  omega

theorem est_seed_break (ov p : List Char) (ot : Nat)
    (hov : ov.length ≤ ot * CHARS_PER_TOKEN) :
    estimate_tokens (ov ++ '\n' :: '\n' :: p) ≤ ot + estimate_tokens p + 1 := by
  unfold estimate_tokens CHARS_PER_TOKEN at *
  rw [List.length_append, List.length_cons, List.length_cons]
  omega

theorem stepSentence_bound (src : List Char) (mt ot S B : Nat) (hot : 1 ≤ ot)
    (hmtB : mt ≤ B) (hSB : S ≤ B) :
    ∀ st s, estimate_tokens s ≤ S →
      ((∀ c ∈ st.chunks, c.token_estimate ≤ B + ot + 1) ∧
        estimate_tokens st.cur ≤ B + ot + 1) →
      ((∀ c ∈ (stepSentence src mt (ot * CHARS_PER_TOKEN) st s).chunks,
          c.token_estimate ≤ B + ot + 1) ∧
        estimate_tokens (stepSentence src mt (ot * CHARS_PER_TOKEN) st s).cur ≤
          B + ot + 1) := by
  intro st s hsS hI
  obtain ⟨hch, hcur⟩ := hI
  unfold stepSentence
  by_cases hcond : mt < estimate_tokens (st.cur ++ ' ' :: s) ∧ st.cur ≠ []
  · rw [if_pos hcond]
    constructor
    · intro c hc
      rw [List.mem_append] at hc
      rcases hc with hc | hc
      · exact hch c hc
      · rw [List.mem_singleton] at hc
        subst hc
        exact hcur
    · show estimate_tokens
        (get_overlap st.cur (ot * CHARS_PER_TOKEN) ++ ' ' :: s) ≤ B + ot + 1
      have hlen : (get_overlap st.cur (ot * CHARS_PER_TOKEN)).length ≤
          ot * CHARS_PER_TOKEN := by
        apply get_overlap_length_le
        unfold CHARS_PER_TOKEN
        omega
      have h1 := est_seed_space (get_overlap st.cur (ot * CHARS_PER_TOKEN)) s ot hlen
      omega
  · rw [if_neg hcond]
    refine ⟨hch, ?_⟩
    show estimate_tokens (st.cur ++ ' ' :: s) ≤ B + ot + 1
    by_cases hemp : st.cur = []
    · rw [hemp]
      have h1 := est_seed_space [] s ot (by simp)
      rw [List.nil_append] at h1 ⊢
      omega
    · have hnotlt : ¬ mt < estimate_tokens (st.cur ++ ' ' :: s) := by
        intro hlt; exact hcond ⟨hlt, hemp⟩
      omega

theorem stepPara_bound (src : List Char) (mt ot S B : Nat) (hot : 1 ≤ ot)
    (hmtB : mt ≤ B) (hSB : S ≤ B) :
    ∀ st p,
      (mt < estimate_tokens p → ∀ s ∈ split_by_sentences p,
        estimate_tokens s ≤ S) →
      ((∀ c ∈ st.chunks, c.token_estimate ≤ B + ot + 1) ∧
        estimate_tokens st.cur ≤ B + ot + 1) →
      ((∀ c ∈ (stepPara src mt (ot * CHARS_PER_TOKEN) st p).chunks,
          c.token_estimate ≤ B + ot + 1) ∧
        estimate_tokens (stepPara src mt (ot * CHARS_PER_TOKEN) st p).cur ≤
          B + ot + 1) := by
  intro st p hp hI
  unfold stepPara
  by_cases h1 : mt < estimate_tokens p
  · rw [if_pos h1]
    exact foldl_inv _ (stepSentence_bound src mt ot S B hot hmtB hSB) _ st (hp h1) hI
  · rw [if_neg h1]
    obtain ⟨hch, hcur⟩ := hI
    by_cases h2 : mt < estimate_tokens (st.cur ++ '\n' :: '\n' :: p) ∧ st.cur ≠ []
    · rw [if_pos h2]
      constructor
      · intro c hc
        rw [List.mem_append] at hc
        rcases hc with hc | hc
        · exact hch c hc
        · rw [List.mem_singleton] at hc
          subst hc
          exact hcur
      · show estimate_tokens
          (get_overlap st.cur (ot * CHARS_PER_TOKEN) ++ '\n' :: '\n' :: p) ≤
            B + ot + 1
        have hlen : (get_overlap st.cur (ot * CHARS_PER_TOKEN)).length ≤
            ot * CHARS_PER_TOKEN := by
          apply get_overlap_length_le
          unfold CHARS_PER_TOKEN
          omega
        have hb := est_seed_break (get_overlap st.cur (ot * CHARS_PER_TOKEN)) p ot hlen
        omega
    · rw [if_neg h2]
      by_cases h3 : st.cur ≠ []
      · rw [if_pos h3]
        refine ⟨hch, ?_⟩
        show estimate_tokens (st.cur ++ '\n' :: '\n' :: p) ≤ B + ot + 1
        have hnotlt : ¬ mt < estimate_tokens (st.cur ++ '\n' :: '\n' :: p) := by
          intro hlt; exact h2 ⟨hlt, h3⟩
        omega
      · rw [if_neg h3]
        refine ⟨hch, ?_⟩
        show estimate_tokens p ≤ B + ot + 1
        omega

theorem chunk_text_bound (text source : List Char) (mt ot : Nat)
    (hot : 1 ≤ ot) :
    ∀ c ∈ chunk_text text source mt ot,
      c.token_estimate ≤
        Nat.max mt (maxOversizedSentEst mt (parasOf text)) + ot + 1 := by
  intro c hc
  unfold chunk_text at hc
  by_cases h0 : strip text = []
  · rw [if_pos h0] at hc; simp at hc
  · rw [if_neg h0] at hc
    have hI := foldl_inv (I := fun (st : CState) =>
        (∀ c ∈ st.chunks, c.token_estimate ≤
          Nat.max mt (maxOversizedSentEst mt (parasOf text)) + ot + 1) ∧
        estimate_tokens st.cur ≤
          Nat.max mt (maxOversizedSentEst mt (parasOf text)) + ot + 1)
      _ (stepPara_bound source mt ot (maxOversizedSentEst mt (parasOf text))
          (Nat.max mt (maxOversizedSentEst mt (parasOf text))) hot
          (Nat.le_max_left _ _) (Nat.le_max_right _ _))
      (parasOf text) ⟨[], 0, []⟩
      (fun p hpmem hmt s hs =>
        sent_le_maxOversized mt (parasOf text) p s hpmem hmt hs)
      ⟨by intro c hc; simp at hc, by simp [estimate_tokens]⟩
    obtain ⟨hch, hcur⟩ := hI
    unfold finalize at hc
    by_cases hf : strip (((parasOf text).foldl
        (stepPara source mt (ot * CHARS_PER_TOKEN)) ⟨[], 0, []⟩).cur) = []
    · rw [if_pos hf] at hc
      exact hch c hc
    · rw [if_neg hf] at hc
      rw [List.mem_append] at hc
      rcases hc with hc | hc
      · exact hch c hc
      · rw [List.mem_singleton] at hc
        subst hc
        exact hcur

/-! ### The overlap-continuity invariant -/

theorem linkInv_save (src w u : List Char) (oc idx0 : Nat) (st : CState)
    (hu : strip u = u) (hune : u ≠ []) (hI : linkInv st) (hne : st.cur ≠ []) :
    linkInv ⟨st.chunks ++ [⟨src, idx0, strip st.cur, estimate_tokens st.cur⟩],
      idx0 + 1, get_overlap st.cur oc ++ (w ++ u)⟩ := by
  obtain ⟨hch, hcur, hlink⟩ := hI
  have hr : rstrip st.cur = st.cur := by
    rcases hcur with h | ⟨hr, _⟩
    · exact absurd h hne
    · exact hr
  have hstrip : strip st.cur = lstrip st.cur := strip_eq_lstrip _ hr
  obtain ⟨pre, hpre⟩ := get_overlap_tail st.cur oc
  have hovl : lstrip (get_overlap st.cur oc) ≠ [] :=
    lstrip_get_overlap_ne_nil st.cur oc hr hne
  obtain ⟨pre2, hpre2⟩ := lstrip_tail_of_tail st.cur (get_overlap st.cur oc) pre hpre
  refine ⟨?_, ?_, ?_⟩
  · apply chainRel_snoc _ _ _ hch
    intro a ha
    obtain ⟨-, t, tne, hsuf, rest, hhead⟩ := hlink a ha
    refine ⟨t, tne, hsuf, rest, ?_⟩
    show strip st.cur = t ++ rest
    rw [hstrip]
    exact hhead
  · show curOk (get_overlap st.cur oc ++ (w ++ u))
    rw [← List.append_assoc]
    exact curOk_append _ u hu hune
  · intro a ha
    rw [List.getLast?_concat] at ha
    injection ha with ha
    subst ha
    refine ⟨?_, lstrip (get_overlap st.cur oc), hovl, ?_, ?_⟩
    · show get_overlap st.cur oc ++ (w ++ u) ≠ []
      intro hcon
      exact hune (List.append_eq_nil.mp (List.append_eq_nil.mp hcon).2).2
    · refine ⟨pre2, ?_⟩
      show strip st.cur = pre2 ++ lstrip (get_overlap st.cur oc)
      rw [hstrip, hpre2]
    · refine ⟨w ++ u, ?_⟩
      show lstrip (get_overlap st.cur oc ++ (w ++ u)) = _
      rw [lstrip_append_left _ _ hovl]

theorem linkInv_append (st : CState) (w u : List Char)
    (hu : strip u = u) (hune : u ≠ []) (hch : ChainRel overlapRel st.chunks)
    (hlink : ∀ a, st.chunks.getLast? = some a →
      st.cur ≠ [] ∧ ∃ t, t ≠ [] ∧ (∃ pre, a.text = pre ++ t) ∧
        ∃ rest, lstrip st.cur = t ++ rest) :
    linkInv ⟨st.chunks, st.idx, st.cur ++ (w ++ u)⟩ := by
  refine ⟨hch, ?_, ?_⟩
  · show curOk (st.cur ++ (w ++ u))
    rw [← List.append_assoc]
    exact curOk_append _ u hu hune
  · intro a ha
    obtain ⟨hne, t, tne, hsuf, rest, hhead⟩ := hlink a ha
    have hlne : lstrip st.cur ≠ [] := by
      rw [hhead]
      intro hcon
      exact tne (List.append_eq_nil.mp hcon).1
    refine ⟨?_, t, tne, hsuf, rest ++ (w ++ u), ?_⟩
    · show st.cur ++ (w ++ u) ≠ []
      intro hcon
      exact hune (List.append_eq_nil.mp (List.append_eq_nil.mp hcon).2).2
    · show lstrip (st.cur ++ (w ++ u)) = t ++ (rest ++ (w ++ u))
      rw [lstrip_append_left _ _ hlne, hhead, List.append_assoc]

theorem stepSentence_link (src : List Char) (mt oc : Nat) :
    ∀ st s, (strip s = s ∧ s ≠ []) → linkInv st →
      linkInv (stepSentence src mt oc st s) := by
  intro st s hs hI
  unfold stepSentence
  by_cases hcond : mt < estimate_tokens (st.cur ++ ' ' :: s) ∧ st.cur ≠ []
  · rw [if_pos hcond]
    exact linkInv_save src [' '] s oc st.idx st hs.1 hs.2 hI hcond.2
  · rw [if_neg hcond]
    obtain ⟨hch, hcur, hlink⟩ := hI
    exact linkInv_append st [' '] s hs.1 hs.2 hch hlink

theorem stepPara_link (src : List Char) (mt oc : Nat) :
    ∀ st p, (strip p = p ∧ p ≠ []) → linkInv st →
      linkInv (stepPara src mt oc st p) := by
  intro st p hp hI
  unfold stepPara
  by_cases h1 : mt < estimate_tokens p
  · rw [if_pos h1]
    exact foldl_inv _ (stepSentence_link src mt oc) _ st
      (fun s hs => mem_split_by_sentences p s hs) hI
  · rw [if_neg h1]
    by_cases h2 : mt < estimate_tokens (st.cur ++ '\n' :: '\n' :: p) ∧ st.cur ≠ []
    · rw [if_pos h2]
      exact linkInv_save src ['\n', '\n'] p oc st.idx st hp.1 hp.2 hI h2.2
    · rw [if_neg h2]
      obtain ⟨hch, hcur, hlink⟩ := hI
      by_cases h3 : st.cur ≠ []
      · rw [if_pos h3]
        exact linkInv_append st ['\n', '\n'] p hp.1 hp.2 hch hlink
      · rw [if_neg h3]
        refine ⟨hch, ?_, ?_⟩
        · show curOk p
          rw [show p = [] ++ p by simp]
          exact curOk_append [] p hp.1 hp.2
        · intro a ha
          exact absurd (hlink a ha).1 h3

theorem chunk_text_chain (text source : List Char) (mt ot : Nat) :
    ChainRel overlapRel (chunk_text text source mt ot) := by
  unfold chunk_text
  by_cases h0 : strip text = []
  · rw [if_pos h0]; exact trivial
  · rw [if_neg h0]
    have hI : linkInv ((parasOf text).foldl
        (stepPara source mt (ot * CHARS_PER_TOKEN)) ⟨[], 0, []⟩) :=
      foldl_inv _ (stepPara_link source mt _) _ _
        (fun p hp => mem_parasOf text p hp)
        ⟨trivial, Or.inl rfl, by intro a ha; simp at ha⟩
    obtain ⟨hch, hcur, hlink⟩ := hI
    unfold finalize
    by_cases hf : strip (((parasOf text).foldl
        (stepPara source mt (ot * CHARS_PER_TOKEN)) ⟨[], 0, []⟩).cur) = []
    · rw [if_pos hf]
      exact hch
    · rw [if_neg hf]
      apply chainRel_snoc _ _ _ hch
      intro a ha
      obtain ⟨hne, t, tne, hsuf, rest, hhead⟩ := hlink a ha
      have hr : rstrip (((parasOf text).foldl
          (stepPara source mt (ot * CHARS_PER_TOKEN)) ⟨[], 0, []⟩).cur) =
          ((parasOf text).foldl
            (stepPara source mt (ot * CHARS_PER_TOKEN)) ⟨[], 0, []⟩).cur := by
        rcases hcur with h | ⟨hr, _⟩
        · exact absurd h hne
        · exact hr
      refine ⟨t, tne, hsuf, rest, ?_⟩
      show strip _ = t ++ rest
      rw [strip_eq_lstrip _ hr]
      exact hhead

/-! ### Multi-source aggregation, empty input, single-paragraph input -/

theorem chunk_text_empty (text source : List Char) (mt ot : Nat)
    (h : strip text = []) : chunk_text text source mt ot = [] := by
  unfold chunk_text
  rw [if_pos h]

theorem cms_foldl (mt : Nat) : ∀ (l : List SourceData) (acc : List Chunk),
    l.foldl (fun all_chunks sd =>
      if strip sd.text = [] then all_chunks
      else all_chunks ++ chunk_text sd.text sd.source mt 100) acc =
    acc ++ (l.filter fun sd => !(strip sd.text).isEmpty).flatMap
      (fun sd => chunk_text sd.text sd.source mt 100) := by
  intro l
  induction l with
  | nil => intro acc; simp
  | cons sd tl ih =>
    intro acc
    rw [List.foldl_cons]
    by_cases h : strip sd.text = []
    · rw [if_pos h, ih, List.filter_cons,
        if_neg (by rw [h]; simp)]
    · rw [if_neg h, ih, List.filter_cons,
        if_pos (by simpa using h), List.flatMap_cons, List.append_assoc]

theorem chunk_multiple_sources_eq (sources : List SourceData) (mt : Nat) :
    chunk_multiple_sources sources mt =
      (sources.filter fun sd => !(strip sd.text).isEmpty).flatMap
        (fun sd => chunk_text sd.text sd.source mt 100) := by
  unfold chunk_multiple_sources
  rw [cms_foldl]
  rfl

theorem splitParasAux_no_break :
    ∀ (l acc : List Char), hasParaBreak l = false →
      splitParasAux acc l = [acc.reverse ++ l] := by
  intro l
  induction l with
  | nil => intro acc _; simp [splitParasAux]
  | cons c tl ih =>
    intro acc hbr
    cases tl with
    | nil => simp [splitParasAux]
    | cons d rest =>
      have hbr2 : hasParaBreak (d :: rest) = false := by
        unfold hasParaBreak at hbr
        rcases Bool.or_eq_false_iff.mp hbr with ⟨_, h2⟩
        exact h2
      have hcd : (c == '\n' && d == '\n') = false := by
        unfold hasParaBreak at hbr
        rcases Bool.or_eq_false_iff.mp hbr with ⟨h1, _⟩
        exact h1
      unfold splitParasAux
      rw [if_neg (by rw [hcd]; simp)]
      rw [ih (c :: acc) hbr2]
      simp

theorem stepPara_from_empty (src : List Char) (mt oc : Nat) (p : List Char)
    (h1 : ¬ mt < estimate_tokens p) :
    stepPara src mt oc ⟨[], 0, []⟩ p = ⟨[], 0, p⟩ := by
  unfold stepPara
  rw [if_neg h1]
  rw [if_neg (by intro h; exact h.2 rfl)]
  rw [if_neg (by intro h; exact h rfl)]

theorem chunk_text_single (text source : List Char) (mt ot : Nat)
    (hs : strip text ≠ []) (hest : estimate_tokens text < mt)
    (hbr : hasParaBreak text = false) :
    chunk_text text source mt ot =
      [⟨source, 0, strip text, estimate_tokens (strip text)⟩] := by
  unfold chunk_text
  rw [if_neg hs]
  have hpar : parasOf text = [strip text] := by
    unfold parasOf splitParas
    rw [splitParasAux_no_break text [] hbr]
    simp [hs]
  rw [hpar, List.foldl_cons, List.foldl_nil]
  have h1 : ¬ mt < estimate_tokens (strip text) := by
    have := estimate_strip_le text
    omega
  rw [stepPara_from_empty source mt _ (strip text) h1]
  unfold finalize
  rw [if_neg (by show ¬ strip (strip text) = []; rw [strip_idem]; exact hs)]
  dsimp only
  rw [strip_idem, List.nil_append]

theorem get_overlap_eq_claimed (t : List Char) (oc : Nat) (h : 0 < oc) :
    get_overlap t oc = get_overlap_claimed t oc := by
  have hsl : overlapSlice t oc = t.drop (t.length - oc) := by
    unfold overlapSlice
    rw [if_neg (by omega)]
  unfold get_overlap get_overlap_claimed
  by_cases hg : t.length ≤ oc
  · rw [if_pos hg, if_pos hg]
  · rw [if_neg hg, if_neg hg]
    simp only [hsl]

/-! ### The sentence delimiter is removed entirely -/

theorem ws_not_sentEnd (c : Char) (h : pyIsSpace c = true) :
    isSentEnd c = false := by
  unfold pyIsSpace at h
  simp only [Bool.or_eq_true, beq_iff_eq] at h
  rcases h with (((((h | h) | h) | h) | h) | h) <;> subst h <;> decide

theorem cd_short (l : List Char) (h : l.length ≤ 1) :
    containsDelim l = false := by
  cases l with
  | nil => rfl
  | cons c tl =>
    cases tl with
    | nil => rfl
    | cons d tl2 => simp at h

theorem cd_snoc2 : ∀ (xs : List Char) (c d : Char),
    containsDelim (xs ++ [c, d]) =
      (containsDelim (xs ++ [c]) || (isSentEnd c && pyIsSpace d)) := by
  intro xs
  induction xs with
  | nil => intro c d; simp [containsDelim]
  | cons x tl ih =>
    intro c d
    cases tl with
    | nil => simp [containsDelim]
    | cons y tl2 =>
      have ih2 := ih c d
      simp only [List.cons_append] at ih2
      simp only [List.cons_append, containsDelim, List.append_eq]
      rw [ih2, Bool.or_assoc]

theorem cd_snoc1 : ∀ (xs : List Char) (c : Char),
    containsDelim (xs ++ [c]) = false → containsDelim xs = false := by
  intro xs
  induction xs with
  | nil => intro c _; rfl
  | cons x tl ih =>
    intro c h
    cases tl with
    | nil => rfl
    | cons y tl2 =>
      simp only [List.cons_append, containsDelim, List.append_eq] at h ⊢
      rcases Bool.or_eq_false_iff.mp h with ⟨h1, h2⟩
      rw [h1, ih c h2]
      rfl

theorem cd_append_false_left : ∀ (xs ys : List Char),
    containsDelim (xs ++ ys) = false → containsDelim ys = false := by
  intro xs
  induction xs with
  | nil => intro ys h; exact h
  | cons x tl ih =>
    intro ys h
    cases h2 : tl ++ ys with
    | nil =>
      have : ys = [] := (List.append_eq_nil.mp h2).2
      rw [this]; rfl
    | cons z tl2 =>
      rw [List.cons_append, h2, containsDelim] at h
      rcases Bool.or_eq_false_iff.mp h with ⟨_, hrest⟩
      rw [← h2] at hrest
      exact ih ys hrest

theorem cd_append_false_right : ∀ (xs ys : List Char),
    containsDelim (xs ++ ys) = false → containsDelim xs = false := by
  intro xs
  induction xs with
  | nil => intro ys _; rfl
  | cons x tl ih =>
    intro ys h
    cases tl with
    | nil => rfl
    | cons y tl2 =>
      simp only [List.cons_append, containsDelim, List.append_eq] at h ⊢
      rcases Bool.or_eq_false_iff.mp h with ⟨h1, h2⟩
      have := ih ys (by rw [List.cons_append]; exact h2)
      rw [h1, this]
      rfl

theorem strip_middle (l : List Char) :
    ∃ pre suf, l = pre ++ strip l ++ suf := by
  refine ⟨l.takeWhile pyIsSpace, ((lstrip l).reverse.takeWhile pyIsSpace).reverse, ?_⟩
  have h1 := lstrip_decomp l
  have h2 : lstrip l =
      strip l ++ ((lstrip l).reverse.takeWhile pyIsSpace).reverse :=
    rstrip_decomp (lstrip l)
  rw [List.append_assoc, ← h2]
  exact h1

theorem cd_strip (s : List Char) (h : containsDelim s = false) :
    containsDelim (strip s) = false := by
  obtain ⟨pre, suf, hdec⟩ := strip_middle s
  rw [hdec, List.append_assoc] at h
  exact cd_append_false_right _ _ (cd_append_false_left _ _ h)

theorem sentAux_nil (mode : Bool) (acc : List Char) :
    sentAux mode acc [] = [acc.reverse] := by
  cases mode <;> rfl

theorem sentAux_false_one (acc : List Char) (c : Char) :
    sentAux false acc [c] = [(c :: acc).reverse] := rfl

theorem sentAux_false_cons2 (acc : List Char) (c d : Char) (rest2 : List Char) :
    sentAux false acc (c :: d :: rest2) =
      if isSentEnd c && pyIsSpace d then
        acc.reverse :: sentAux true [] (d :: rest2)
      else sentAux false (c :: acc) (d :: rest2) := rfl

theorem sentAux_true_cons (acc : List Char) (c : Char) (rest : List Char) :
    sentAux true acc (c :: rest) =
      if pyIsSpace c then sentAux true acc rest
      else
        match rest with
        | [] => [(c :: acc).reverse]
        | d :: rest2 =>
          if isSentEnd c && pyIsSpace d then
            acc.reverse :: sentAux true [] (d :: rest2)
          else sentAux false (c :: acc) (d :: rest2) := by
  cases rest with
  | nil => rfl
  | cons d rest2 => rfl

theorem sentAux_true_ws (acc : List Char) (c : Char) (rest : List Char)
    (h : pyIsSpace c = true) :
    sentAux true acc (c :: rest) = sentAux true acc rest := by
  rw [sentAux_true_cons, if_pos h]

theorem sentAux_true_nonws (acc : List Char) (c : Char) (rest : List Char)
    (h : pyIsSpace c = false) :
    sentAux true acc (c :: rest) = sentAux false acc (c :: rest) := by
  rw [sentAux_true_cons, if_neg (by rw [h]; simp)]
  cases rest with
  | nil => rfl
  | cons d rest2 => rfl

theorem sentAux_delim_free :
    ∀ (l : List Char) (mode : Bool) (acc : List Char),
      (mode = true → acc = []) →
      containsDelim (acc.reverse ++ l.take 1) = false →
      ∀ piece ∈ sentAux mode acc l, containsDelim piece = false := by
  intro l
  induction l with
  | nil =>
    intro mode acc _ hH piece hp
    rw [sentAux_nil, List.mem_singleton] at hp
    subst hp
    simpa using hH
  | cons c tl ih =>
    intro mode acc hma hH piece hp
    have hfalse : ∀ acc2, containsDelim (acc2.reverse ++ [c]) = false →
        ∀ piece2 ∈ sentAux false acc2 (c :: tl),
          containsDelim piece2 = false := by
      intro acc2 hH2 piece2 hp2
      cases tl with
      | nil =>
        rw [sentAux_false_one, List.mem_singleton] at hp2
        subst hp2
        rw [List.reverse_cons]
        exact hH2
      | cons d rest2 =>
        by_cases hm : (isSentEnd c && pyIsSpace d) = true
        · rw [sentAux_false_cons2, if_pos hm, List.mem_cons] at hp2
          rcases hp2 with hp2 | hp2
          · subst hp2
            exact cd_snoc1 acc2.reverse c hH2
          · refine ih true [] (fun _ => rfl) ?_ piece2 hp2
            exact cd_short _ (by simp)
        · have hpair : (isSentEnd c && pyIsSpace d) = false := by
            revert hm; cases (isSentEnd c && pyIsSpace d) <;> simp
          rw [sentAux_false_cons2, if_neg (by rw [hpair]; simp)] at hp2
          refine ih false (c :: acc2)
            (by intro h; exact absurd h (by decide)) ?_ piece2 hp2
          have H2 : containsDelim (acc2.reverse ++ [c, d]) = false := by
            rw [cd_snoc2, hH2, hpair]
            rfl
          show containsDelim ((c :: acc2).reverse ++ [d]) = false
          rw [List.reverse_cons, List.append_assoc]
          exact H2
    cases mode with
    | true =>
      have hacc := hma rfl
      subst hacc
      by_cases hws : pyIsSpace c = true
      · rw [sentAux_true_ws [] c tl hws] at hp
        refine ih true [] (fun _ => rfl) ?_ piece hp
        apply cd_short
        have := List.length_take 1 tl
        simp only [List.nil_append, List.reverse_nil, List.length_reverse]
        omega
      · have hws2 : pyIsSpace c = false := by
          revert hws; cases pyIsSpace c <;> simp
        rw [sentAux_true_nonws [] c tl hws2] at hp
        exact hfalse [] hH piece hp
    | false =>
      exact hfalse acc hH piece hp

theorem split_by_sentences_delim_free (text : List Char) :
    ∀ s ∈ split_by_sentences text, containsDelim s = false := by
  intro s hs
  unfold split_by_sentences at hs
  rw [List.mem_filter] at hs
  obtain ⟨hmem, _⟩ := hs
  rw [List.mem_map] at hmem
  obtain ⟨q, hq, hqs⟩ := hmem
  have hqf := sentAux_delim_free text false []
    (by intro h; exact absurd h (by decide))
    (by
      apply cd_short
      have := List.length_take 1 text
      simp only [List.nil_append, List.reverse_nil]
      omega)
    q hq
  rw [← hqs]
  exact cd_strip q hqf

theorem sentAux_sum_le :
    ∀ (l : List Char) (mode : Bool) (acc : List Char),
      ((sentAux mode acc l).map List.length).sum ≤ acc.length + l.length := by
  intro l
  induction l with
  | nil =>
    intro mode acc
    rw [sentAux_nil]
    simp
  | cons c tl ih =>
    intro mode acc
    have hfalse : ∀ acc2 : List Char,
        ((sentAux false acc2 (c :: tl)).map List.length).sum ≤
          acc2.length + (c :: tl).length := by
      intro acc2
      cases tl with
      | nil =>
        rw [sentAux_false_one]
        simp
      | cons d rest2 =>
        rw [sentAux_false_cons2]
        by_cases hm : (isSentEnd c && pyIsSpace d) = true
        · rw [if_pos hm]
          have h1 := ih true []
          simp only [List.map_cons, List.sum_cons, List.length_reverse,
            List.length_cons, List.length_nil] at h1 ⊢
          omega
        · have hpair : (isSentEnd c && pyIsSpace d) = false := by
            revert hm; cases (isSentEnd c && pyIsSpace d) <;> simp
          rw [if_neg (by rw [hpair]; simp)]
          have h1 := ih false (c :: acc2)
          simp only [List.length_cons] at h1 ⊢
          omega
    cases mode with
    | true =>
      by_cases hws : pyIsSpace c = true
      · rw [sentAux_true_ws acc c tl hws]
        have h1 := ih true acc
        simp only [List.length_cons]
        omega
      · have hws2 : pyIsSpace c = false := by
          revert hws; cases pyIsSpace c <;> simp
        rw [sentAux_true_nonws acc c tl hws2]
        exact hfalse acc
    | false => exact hfalse acc

theorem sentAux_sum_lt :
    ∀ (l : List Char) (mode : Bool) (acc : List Char),
      containsDelim l = true →
      ((sentAux mode acc l).map List.length).sum + 2 ≤ acc.length + l.length := by
  intro l
  induction l with
  | nil =>
    intro mode acc h
    exact absurd h (by decide)
  | cons c tl ih =>
    intro mode acc hcd
    have hfalse : ∀ acc2 : List Char,
        ((sentAux false acc2 (c :: tl)).map List.length).sum + 2 ≤
          acc2.length + (c :: tl).length := by
      intro acc2
      cases tl with
      | nil =>
        rw [cd_short [c] (by simp)] at hcd
        exact absurd hcd (by decide)
      | cons d rest2 =>
        rw [sentAux_false_cons2]
        by_cases hm : (isSentEnd c && pyIsSpace d) = true
        · rw [if_pos hm]
          have hd : pyIsSpace d = true := by
            revert hm
            cases isSentEnd c <;> cases pyIsSpace d <;> simp
          rw [sentAux_true_ws [] d rest2 hd]
          have h1 := sentAux_sum_le rest2 true []
          simp only [List.map_cons, List.sum_cons, List.length_reverse,
            List.length_cons, List.length_nil] at h1 ⊢
          omega
        · have hpair : (isSentEnd c && pyIsSpace d) = false := by
            revert hm; cases (isSentEnd c && pyIsSpace d) <;> simp
          rw [if_neg (by rw [hpair]; simp)]
          have hcd2 : containsDelim (d :: rest2) = true := by
            have heq : containsDelim (c :: d :: rest2) =
                ((isSentEnd c && pyIsSpace d) || containsDelim (d :: rest2)) := rfl
            rw [heq, hpair] at hcd
            simpa using hcd
          have h1 := ih false (c :: acc2) hcd2
          simp only [List.length_cons] at h1 ⊢
          omega
    cases mode with
    | true =>
      by_cases hws : pyIsSpace c = true
      · rw [sentAux_true_ws acc c tl hws]
        have hse : isSentEnd c = false := ws_not_sentEnd c hws
        have hcd2 : containsDelim tl = true := by
          cases tl with
          | nil =>
            exfalso
            rw [cd_short [c] (by simp)] at hcd
            exact absurd hcd (by decide)
          | cons d rest2 =>
            have heq : containsDelim (c :: d :: rest2) =
                ((isSentEnd c && pyIsSpace d) || containsDelim (d :: rest2)) := rfl
            rw [heq, hse] at hcd
            simpa using hcd
        have h1 := ih true acc hcd2
        simp only [List.length_cons]
        omega
      · have hws2 : pyIsSpace c = false := by
          revert hws; cases pyIsSpace c <;> simp
        rw [sentAux_true_nonws acc c tl hws2]
        exact hfalse acc
    | false => exact hfalse acc

theorem sum_strip_filter_le (pieces : List (List Char)) :
    (((pieces.map strip).filter fun s => !s.isEmpty).map List.length).sum ≤
      (pieces.map List.length).sum := by
  induction pieces with
  | nil => simp
  | cons p tl ih =>
    simp only [List.map_cons, List.filter_cons, List.sum_cons]
    by_cases h : (!(strip p).isEmpty) = true
    · rw [if_pos h]
      simp only [List.map_cons, List.sum_cons]
      have := length_strip_le p
      omega
    · rw [if_neg h]
      omega

theorem split_by_sentences_flatten_ne (text : List Char)
    (h : containsDelim text = true) :
    (split_by_sentences text).flatten ≠ text := by
  intro hc
  have h1 := sentAux_sum_lt text false [] h
  have h2 := sum_strip_filter_le (sentAux false [] text)
  have h3 : ((split_by_sentences text).map List.length).sum = text.length := by
    rw [← List.length_flatten, hc]
  unfold split_by_sentences at h3
  simp only [List.length_nil] at h1
  omega

/-! ### Claim theorems -/

/-- Claim C1, counterexample.  With `max_tokens = 2`, `overlap_tokens = 2`,
the middle chunk of this input has `token_estimate = 3 > max_tokens`, yet its
whole text estimates to `2 ≤ max_tokens`, so it does not consist of a single
oversized paragraph or sentence: the overflow comes from the overlap seed,
not from an oversized unit, refuting the claimed soft bound. -/
theorem claim_C1_counterexample :
    ∃ c ∈ chunk_text "abcdefg. hij. klmnopq".data "s".data 2 2,
      2 < c.token_estimate ∧ estimate_tokens c.text ≤ 2 :=
  ⟨⟨"s".data, 1, "abcdefg hij".data, 3⟩, by decide, by decide, by decide⟩

/-- Claim C1 (amended): a chunk seeded with the overlap tail of the previous
accumulator can exceed `max_tokens` even when it contains no oversized unit;
the bound that does hold for `overlap_tokens ≥ 1` is
`token_estimate ≤ max(max_tokens, largest sentence estimate among oversized
paragraphs) + overlap_tokens + 1`. -/
theorem claim_C1_amended (text source : List Char) (mt ot : Nat)
    (hot : 1 ≤ ot) :
    ∀ c ∈ chunk_text text source mt ot,
      c.token_estimate ≤
        Nat.max mt (maxOversizedSentEst mt (parasOf text)) + ot + 1 :=
  chunk_text_bound text source mt ot hot

theorem claim_C1_amended_witness :
    (⟨"s".data, 1, "abcdefg hij".data, 3⟩ : Chunk).token_estimate ≤
      Nat.max 2 (maxOversizedSentEst 2 (parasOf "abcdefg. hij. klmnopq".data)) +
        2 + 1 :=
  claim_C1_amended "abcdefg. hij. klmnopq".data "s".data 2 2 (by decide)
    ⟨"s".data, 1, "abcdefg hij".data, 3⟩ (by decide)

/-- Claim C2, counterexample.  For text `"ab"` and `overlap_chars = 0` the
claim says the trailing slice of zero characters (the empty string) is
returned, but `_get_overlap` returns the whole text: the Python slice
`text[-0:]` is the whole string.  `get_overlap_claimed` is the claim's
description of the function. -/
theorem claim_C2_counterexample :
    get_overlap "ab".data 0 = "ab".data ∧
      get_overlap_claimed "ab".data 0 = [] ∧ "ab".data ≠ ([] : List Char) :=
  ⟨by decide, by decide, by decide⟩

/-- Claim C2 (amended): for `overlap_chars ≥ 1`, `_get_overlap` behaves
exactly as claimed (whole text when it fits, else the trailing
`overlap_chars` characters, cut after the first period-space if present);
for `overlap_chars = 0` and non-empty text the Python negative-zero slice
makes the function return the whole text (after the period-space cut)
instead of the empty string. -/
theorem claim_C2_amended (text : List Char) (oc : Nat) (h : 0 < oc) :
    get_overlap text oc = get_overlap_claimed text oc :=
  get_overlap_eq_claimed text oc h

theorem claim_C2_amended_witness :
    get_overlap "xy. zw".data 5 = get_overlap_claimed "xy. zw".data 5 :=
  claim_C2_amended "xy. zw".data 5 (by decide)

/-- Claim C3, counterexample.  In this run the first chunk stores
`token_estimate = 1` computed on the untrimmed accumulator `" aaa"`, while
the trimmed stored text `"aaa"` estimates to `0`. -/
theorem claim_C3_counterexample :
    ∃ c ∈ chunk_text "aaa. bbbb".data "s".data 1 0,
      c.token_estimate ≠ estimate_tokens c.text :=
  ⟨⟨"s".data, 0, "aaa".data, 1⟩, by decide, by decide⟩

/-- Claim C3 (amended): `token_estimate` is the Token Estimator applied to
the untrimmed accumulator at finalization time, whose trimmed form is the
chunk's `text`; consequently `estimate_tokens text ≤ token_estimate`, but
equality can fail when trimming crosses a four-character boundary. -/
theorem claim_C3_amended (text source : List Char) (mt ot : Nat) :
    ∀ c ∈ chunk_text text source mt ot,
      estimate_tokens c.text ≤ c.token_estimate ∧
        ∃ raw, c.text = strip raw ∧ c.token_estimate = estimate_tokens raw := by
  intro c hc
  obtain ⟨-, -, raw, hrt, hre⟩ := (chunk_text_inv text source mt ot).2 c hc
  refine ⟨?_, raw, hrt, hre⟩
  rw [hrt, hre]
  exact estimate_strip_le raw

theorem claim_C3_amended_witness :
    estimate_tokens "aaa".data ≤ 1 ∧
      ∃ raw, "aaa".data = strip raw ∧ 1 = estimate_tokens raw :=
  claim_C3_amended "aaa. bbbb".data "s".data 1 0
    ⟨"s".data, 0, "aaa".data, 1⟩ (by decide)

/-- Claim C4: when `overlap_tokens > 0` and chunking produces consecutive
chunks `c₁, c₂`, the text of `c₂` begins with a non-empty block of
characters that the text of `c₁` ends with (the overlap seed). -/
theorem claim_C4_overlap_presence (text source : List Char) (mt ot : Nat)
    (_hot : 0 < ot) (i : Nat) (c₁ c₂ : Chunk)
    (h1 : (chunk_text text source mt ot)[i]? = some c₁)
    (h2 : (chunk_text text source mt ot)[i + 1]? = some c₂) :
    ∃ t : List Char, t ≠ [] ∧ (∃ pre, c₁.text = pre ++ t) ∧
      ∃ rest, c₂.text = t ++ rest :=
  chainRel_get overlapRel (chunk_text text source mt ot) i c₁ c₂
    (chunk_text_chain text source mt ot) h1 h2

theorem claim_C4_witness :
    ∃ t : List Char, t ≠ [] ∧
      (∃ pre, ("abcdefg".data : List Char) = pre ++ t) ∧
      ∃ rest, ("abcdefg hij".data : List Char) = t ++ rest :=
  claim_C4_overlap_presence "abcdefg. hij. klmnopq".data "s".data 2 2
    (by decide) 0 ⟨"s".data, 0, "abcdefg".data, 2⟩
    ⟨"s".data, 1, "abcdefg hij".data, 3⟩ (by decide) (by decide)

/-- Claim C5: for any input, the emitted `chunk_index` values are exactly
`0, 1, ..., N-1` in emission order, and no emitted chunk has empty or
whitespace-only text. -/
theorem claim_C5_indices_nonempty (text source : List Char) (mt ot : Nat) :
    (chunk_text text source mt ot).map Chunk.chunk_index =
      List.range (chunk_text text source mt ot).length ∧
    ∀ c ∈ chunk_text text source mt ot, c.text ≠ [] ∧ strip c.text ≠ [] := by
  obtain ⟨hmap, htext⟩ := chunk_text_inv text source mt ot
  refine ⟨hmap, ?_⟩
  intro c hc
  obtain ⟨hst, hne, -⟩ := htext c hc
  refine ⟨hne, ?_⟩
  rw [hst]
  exact hne

theorem claim_C5_witness :
    (chunk_text "aaa. bbbb".data "s".data 1 0).map Chunk.chunk_index =
      List.range (chunk_text "aaa. bbbb".data "s".data 1 0).length ∧
    ("aaa".data ≠ ([] : List Char) ∧ strip "aaa".data ≠ []) :=
  ⟨(claim_C5_indices_nonempty "aaa. bbbb".data "s".data 1 0).1,
    (claim_C5_indices_nonempty "aaa. bbbb".data "s".data 1 0).2
      ⟨"s".data, 0, "aaa".data, 1⟩ (by decide)⟩

/-- Claim C6: the aggregator returns exactly the in-order concatenation of
the per-source `chunk_text` results over the records whose text is not
empty or whitespace-only; each per-source sublist's indices restart at 0,
and empty or whitespace-only records contribute zero chunks. -/
theorem claim_C6_multi_source (sources : List SourceData) (mt : Nat) :
    chunk_multiple_sources sources mt =
      (sources.filter fun sd => !(strip sd.text).isEmpty).flatMap
        (fun sd => chunk_text sd.text sd.source mt 100) ∧
    (∀ sd ∈ sources,
      (chunk_text sd.text sd.source mt 100).map Chunk.chunk_index =
        List.range (chunk_text sd.text sd.source mt 100).length) ∧
    ∀ sd ∈ sources, strip sd.text = [] →
      chunk_text sd.text sd.source mt 100 = [] := by
  refine ⟨chunk_multiple_sources_eq sources mt, ?_, ?_⟩
  · intro sd _
    exact (chunk_text_inv sd.text sd.source mt 100).1
  · intro sd _ h
    exact chunk_text_empty sd.text sd.source mt 100 h

theorem claim_C6_witness :
    chunk_multiple_sources
        [⟨"a.txt".data, "short text".data⟩, ⟨"b.txt".data, "".data⟩] 1000 =
      (([⟨"a.txt".data, "short text".data⟩,
         ⟨"b.txt".data, "".data⟩] : List SourceData).filter
        fun sd => !(strip sd.text).isEmpty).flatMap
        (fun sd => chunk_text sd.text sd.source 1000 100) :=
  (claim_C6_multi_source
    [⟨"a.txt".data, "short text".data⟩, ⟨"b.txt".data, "".data⟩] 1000).1

/-- Claim C7, counterexample.  The empty source text satisfies the claim's
hypotheses (its estimate `0` is below `max_tokens = 1000` and it contains no
blank-line break) yet `chunk_text` yields zero chunks, not exactly one. -/
theorem claim_C7_counterexample :
    estimate_tokens "".data < 1000 ∧ hasParaBreak "".data = false ∧
      (chunk_text "".data "doc.txt".data 1000 100).length = 0 ∧
      (0 : Nat) ≠ 1 :=
  ⟨by decide, by decide, by decide, by decide⟩

/-- Claim C7 (amended): for source text that is *not empty or
whitespace-only*, whose estimate is below `max_tokens` and which contains no
blank-line break, `chunk_text` yields exactly one chunk with index 0 and the
trimmed input as text; and the concrete two-paragraph scenario yields
exactly one chunk equal to the full input. -/
theorem claim_C7_amended :
    (∀ (text source : List Char) (mt ot : Nat), strip text ≠ [] →
      estimate_tokens text < mt → hasParaBreak text = false →
      chunk_text text source mt ot =
        [⟨source, 0, strip text, estimate_tokens (strip text)⟩]) ∧
    chunk_text "Paragraph one text.\n\nParagraph two text.".data
        "doc.txt".data 1000 100 =
      [⟨"doc.txt".data, 0,
        "Paragraph one text.\n\nParagraph two text.".data, 10⟩] := by
  refine ⟨?_, by decide⟩
  intro text source mt ot hs hest hbr
  exact chunk_text_single text source mt ot hs hest hbr

theorem claim_C7_amended_witness :
    chunk_text "hello".data "doc.txt".data 1000 100 =
      [⟨"doc.txt".data, 0, strip "hello".data,
        estimate_tokens (strip "hello".data)⟩] :=
  claim_C7_amended.1 "hello".data "doc.txt".data 1000 100
    (by decide) (by decide) (by decide)

/-- Claim C8: chunking an empty or whitespace-only text returns the empty
chunk sequence as a normal result (the embedding is a total function — the
guard returns `[]`, no exception path exists). -/
theorem claim_C8_empty_input (text source : List Char) (mt ot : Nat)
    (h : strip text = []) : chunk_text text source mt ot = [] :=
  chunk_text_empty text source mt ot h

theorem claim_C8_witness :
    chunk_text "".data "doc.txt".data 1000 100 = [] ∧
      chunk_text " \n\t ".data "doc.txt".data 1000 100 = [] :=
  ⟨claim_C8_empty_input "".data "doc.txt".data 1000 100 (by decide),
   claim_C8_empty_input " \n\t ".data "doc.txt".data 1000 100 (by decide)⟩

/-- Claim C9: `chunk_multiple_sources` never forwards an overlap parameter:
its result is the concatenation of `chunk_text(text, source, max_tokens,
overlap_tokens = 100)` over the non-empty sources, so the overlap budget is
always the default 100. -/
theorem claim_C9_default_overlap (sources : List SourceData) (mt : Nat) :
    chunk_multiple_sources sources mt =
      (sources.filter fun sd => !(strip sd.text).isEmpty).flatMap
        (fun sd => chunk_text sd.text sd.source mt 100) :=
  chunk_multiple_sources_eq sources mt

/-- Claim C10: the matched sentence delimiter (a character from `{.!?}`
followed by whitespace) is removed entirely: no returned sentence contains
such a two-character pattern, and whenever the input contains one (i.e. a
split was triggered) the concatenation of the returned sentences does not
reconstruct the input text. -/
theorem claim_C10_delimiter_removed (text : List Char) :
    (∀ s ∈ split_by_sentences text, containsDelim s = false) ∧
    (containsDelim text = true → (split_by_sentences text).flatten ≠ text) :=
  ⟨split_by_sentences_delim_free text, split_by_sentences_flatten_ne text⟩

theorem claim_C10_witness :
    containsDelim "aaa. bbbb".data = true ∧
      (split_by_sentences "aaa. bbbb".data).flatten ≠ "aaa. bbbb".data :=
  ⟨by decide, (claim_C10_delimiter_removed "aaa. bbbb".data).2 (by decide)⟩

end Chunking
